import Mathlib

/-!
Verification of the vibedom proxy core: domain whitelist policy
(`lib/vibedom/whitelist.py`, duplicated as `VibedomProxy.is_allowed` in the
mitmproxy addons), the DLP scrubbing engine (`vm/dlp_scrubber.py`) and the
mitmproxy addon request/response hooks
(`lib/vibedom/container/mitmproxy_addon.py`, `vm/mitmproxy_addon.py`).

Python strings are embedded as `List Char` (Python `str.split`, slicing and
concatenation become list operations, which keeps Python's clamping slice
semantics).  Machine-level details that the claims do not touch (file I/O,
signals, UTF-8 byte decoding) are noted where they are abstracted.
-/

namespace Vibedom

/-- Python `str.lower()` on an ASCII domain string. -/
def toLowerStr (s : List Char) : List Char := s.map Char.toLower

/-- Python `s.split('.')`: split a string at every dot; `""` yields `[""]`. -/
def splitDot : List Char → List (List Char)
  | [] => [[]]
  | c :: rest =>
    match splitDot rest with
    | [] => [[]]
    | p :: ps => if c = '.' then [] :: p :: ps else (c :: p) :: ps

/-- Python `'.'.join(parts)`. -/
def joinDot : List (List Char) → List Char
  | [] => []
  | [p] => p
  | p :: q :: ps => p ++ '.' :: joinDot (q :: ps)

/-- Embedding of `whitelist.is_domain_allowed` (and the identical
`VibedomProxy.is_allowed` of both mitmproxy addons): exact match, else test
every dot-suffix `'.'.join(parts[i:])` for `i` in `range(len(parts))`. -/
def is_domain_allowed (domain : List Char) (whitelist : List (List Char)) : Bool :=
  let d := toLowerStr domain
  if whitelist.contains d then true
  else
    let parts := splitDot d
    (List.range parts.length).any fun i => whitelist.contains (joinDot (parts.drop i))

/-- The spec's wording: the lowercased host is in the set, or some dot-suffix
obtained by dropping one or more leading labels is in the set. -/
def allowedSpec (domain : List Char) (whitelist : List (List Char)) : Prop :=
  toLowerStr domain ∈ whitelist ∨
    ∃ i, 1 ≤ i ∧ i < (splitDot (toLowerStr domain)).length ∧
      joinDot ((splitDot (toLowerStr domain)).drop i) ∈ whitelist

/-! ## DLP scrubber (`vm/dlp_scrubber.py`)

A `Pattern`'s compiled regex is embedded as its observable behaviour in
`scrub`: the `matcher` field maps a text to the list of
`(start, end, matched_text)` triples that `regex.finditer` plus the
group-extraction of `DLPScrubber.scrub` (first capturing group's span when
the regex defines one, else the whole match's span) produce, in match order.
The spans here are `Nat`; Python's extraction can also report `-1` spans
when a regex's first capturing group does not participate in a match
(e.g. `(a)|(b)` matching `b`), which this type cannot represent — that
step is embedded separately, over Python's integers, as `PyMatch` and
`extractSpan` (see the C10 counterexample).
Concrete matchers used in witnesses (`findIter`, `startMatch`) model
`finditer` for a literal regex and for a `^`-anchored literal regex. -/
def MAX_SCRUB_SIZE : Nat := 512000

def CHUNK_SIZE : Nat := 512000

def OVERLAP : Nat := 2000

structure Pattern where
  id : List Char
  description : List Char
  category : List Char
  placeholder : List Char
  matcher : List Char → List (Nat × Nat × List Char)

/-- A detected instance. The Python field `end` is called `endPos` here
(`end` is reserved in Lean). -/
structure Finding where
  pattern_id : List Char
  category : List Char
  matched_text : List Char
  start : Nat
  endPos : Nat
  placeholder : List Char
deriving DecidableEq

structure ScrubResult where
  text : List Char
  findings : List Finding
deriving DecidableEq

def ScrubResult.was_scrubbed (r : ScrubResult) : Bool := r.findings.length > 0

/-- One entry of the Python `all_matches` list:
`(start, end, finding, pattern)`. -/
structure Cand where
  s : Nat
  e : Nat
  finding : Finding
  pattern : Pattern

/-- The `all_matches` accumulation loop of `DLPScrubber.scrub`: all matcher
triples of every pattern (secret patterns then PII patterns, in order). -/
def allCandidates (P : List Pattern) (text : List Char) : List Cand :=
  P.flatMap fun p => (p.matcher text).map fun m =>
    ⟨m.1, m.2.1, ⟨p.id, p.category, m.2.2, m.1, m.2.1, p.placeholder⟩, p⟩

/-- The `all_matches` loop of `DLPScrubber._scrub_chunk`: in-chunk offsets
are translated by `offset` as they are collected. -/
def chunkCandidates (P : List Pattern) (chunk : List Char) (offset : Nat) : List Cand :=
  P.flatMap fun p => (p.matcher chunk).map fun m =>
    ⟨m.1 + offset, m.2.1 + offset,
      ⟨p.id, p.category, m.2.2, m.1 + offset, m.2.1 + offset, p.placeholder⟩, p⟩

/-- Python `text[:s] + ph + text[e:]` (slicing clamps, as `take`/`drop` do). -/
def replaceSpan (t : List Char) (s e : Nat) (ph : List Char) : List Char :=
  t.take s ++ ph ++ t.drop e

/-- Stable insertion step for `list.sort(key=..., reverse=True)`: `x` goes
after every element whose key is `≥ key x` (Python's sort is stable). -/
def insertDescBy (key : α → Nat) (x : α) : List α → List α
  | [] => [x]
  | y :: ys => if key x ≤ key y then y :: insertDescBy key x ys else x :: y :: ys

/-- Python `l.sort(key=..., reverse=True)`: stable descending sort. -/
def sortDescBy (key : α → Nat) (l : List α) : List α :=
  l.foldl (fun acc x => insertDescBy key x acc) []

/-- The overlap-removal loop of `DLPScrubber.scrub`: keep a candidate only
when its end is `≤ min_start`, then lower `min_start` to its start. -/
def filterOverlaps : List Cand → Nat → List Cand
  | [], _ => []
  | c :: cs, minStart =>
    if c.e ≤ minStart then c :: filterOverlaps cs c.s else filterOverlaps cs minStart

/-- Embedding of `DLPScrubber._scrub_chunk`. -/
def scrubChunk (P : List Pattern) (chunk : List Char) (offset : Nat) : ScrubResult :=
  let all_matches := chunkCandidates P chunk offset
  if all_matches.isEmpty then ⟨chunk, []⟩
  else
    let sorted := sortDescBy (fun c => c.s) all_matches
    let filtered := filterOverlaps sorted (chunk.length + offset)
    let chunk_scrubbed := filtered.foldl
      (fun t c => replaceSpan t (c.s - offset) (c.e - offset) c.pattern.placeholder) chunk
    ⟨chunk_scrubbed, (filtered.map (fun c => c.finding)).reverse⟩

/-- The chunking loop of `DLPScrubber._scrub_large_text`: windows of
`CHUNK_SIZE + OVERLAP` characters, advancing by `CHUNK_SIZE`. -/
def scrubLargeAux (P : List Pattern) (text : List Char) (offset : Nat) : List Finding :=
  if offset < text.length then
    (scrubChunk P ((text.drop offset).take (CHUNK_SIZE + OVERLAP)) offset).findings
      ++ scrubLargeAux P text (offset + CHUNK_SIZE)
  else []
termination_by text.length - offset
decreasing_by
  have hc : 0 < CHUNK_SIZE := by decide
  omega

/-- Embedding of `DLPScrubber._deduplicate_findings` with its `seen` set as a list of
keys `(pattern_id, start, end)`. -/
def dedupAux (seen : List (List Char × Nat × Nat)) : List Finding → List Finding
  | [] => []
  | f :: fs =>
    let key := (f.pattern_id, f.start, f.endPos)
    if seen.contains key then dedupAux seen fs
    else f :: dedupAux (key :: seen) fs

def deduplicate_findings (l : List Finding) : List Finding := dedupAux [] l

/-- Embedding of `DLPScrubber._scrub_large_text`. -/
def scrubLargeText (P : List Pattern) (text : List Char) : ScrubResult :=
  let all_findings := scrubLargeAux P text 0
  let unique := deduplicate_findings all_findings
  if unique.isEmpty then ⟨text, []⟩
  else
    let sorted := sortDescBy (fun f => f.start) unique
    let scrubbed := sorted.foldl (fun t f => replaceSpan t f.start f.endPos f.placeholder) text
    ⟨scrubbed, sorted.reverse⟩

/-- Embedding of `DLPScrubber.scrub`. -/
def scrub (P : List Pattern) (text : List Char) : ScrubResult :=
  if text.isEmpty then ⟨text, []⟩
  else if MAX_SCRUB_SIZE < text.length then scrubLargeText P text
  else
    let all_matches := allCandidates P text
    if all_matches.isEmpty then ⟨text, []⟩
    else
      let sorted := sortDescBy (fun c => c.s) all_matches
      let filtered := filterOverlaps sorted text.length
      let scrubbed := filtered.foldl
        (fun t c => replaceSpan t c.s c.e c.pattern.placeholder) text
      ⟨scrubbed, (filtered.map (fun c => c.finding)).reverse⟩

/-! ### Concrete matchers (shallow embeddings of specific regexes) -/
/-- Model of `re.finditer` for a non-empty literal pattern: scan left to right,
emit non-overlapping occurrences, resume after each match.  The `fuel`
argument only drives structural recursion; every call consumes at least one
character, so any `fuel ≥ t.length` gives the untruncated scan. -/
def findIterAux (pat : List Char) : Nat → List Char → Nat → List (Nat × Nat × List Char)
  | 0, _, _ => []
  | fuel + 1, t, pos =>
    if pat.isEmpty then []
    else if pat.isPrefixOf t then
      (pos, pos + pat.length, pat) :: findIterAux pat fuel (t.drop pat.length) (pos + pat.length)
    else
      match t with
      | [] => []
      | _ :: rest => findIterAux pat fuel rest (pos + 1)

def findIter (pat t : List Char) : List (Nat × Nat × List Char) :=
  findIterAux pat t.length t 0

/-- Model of `re.finditer` for a `^`-anchored literal regex `^pat`. -/
def startMatch (pat t : List Char) : List (Nat × Nat × List Char) :=
  if pat.isEmpty then []
  else if pat.isPrefixOf t then [(0, pat.length, pat)] else []

/-- Matcher well-formedness: every reported span lies inside the scanned
text.  Whole-match spans and participating capture-group spans satisfy
this; it is NOT guaranteed by the code for every loadable rule regex —
Python reports `-1` spans when a first capturing group does not
participate in a match (see `PyMatch`, `extractSpan` and the C10
counterexample). -/
def wfPatterns (P : List Pattern) : Prop :=
  ∀ p ∈ P, ∀ t : List Char, ∀ m ∈ p.matcher t, m.1 ≤ m.2.1 ∧ m.2.1 ≤ t.length

/-- A Python `re.Match` as the extraction step of `DLPScrubber.scrub`
sees it: whole-match span, `lastindex` (`None` when no group participated,
else the 1-based index of the last participating group), and the span of
group 1 — `match.start(1)` and `match.end(1)` are Python integers and are
`-1` when the regex defines group 1 but it did not participate in this
match. -/
structure PyMatch where
  start : Int
  endPos : Int
  lastindex : Option Nat
  start1 : Int
  end1 : Int

/-- Python truthiness of `match.lastindex` (`None` and `0` are falsy). -/
def pyTruthy : Option Nat → Bool
  | none => false
  | some n => n != 0

/-- Embedding, over Python's integers, of the span selection of
`DLPScrubber.scrub`: `if match.lastindex:` take the first capturing
group's span, else the whole match's span. -/
def extractSpan (m : PyMatch) : Int × Int :=
  if pyTruthy m.lastindex then (m.start1, m.end1) else (m.start, m.endPos)

/-! ### Concrete pattern instances used in witnesses and counterexamples.
Placeholders follow the loader's `'[REDACTED_' + id.upper().replace('-','_') + ']'`. -/
def abPat : Pattern :=
  ⟨"ab-rule".toList, [], "SECRET".toList, "[REDACTED_AB_RULE]".toList, findIter "ab".toList⟩

def bcPat : Pattern :=
  ⟨"bc-rule".toList, [], "SECRET".toList, "[REDACTED_BC_RULE]".toList, findIter "bc".toList⟩

def bStartPat : Pattern :=
  ⟨"b-rule".toList, [], "SECRET".toList, "[REDACTED_B_RULE]".toList, startMatch "b".toList⟩

def redPat : Pattern :=
  ⟨"red".toList, [], "SECRET".toList, "[REDACTED_RED]".toList, findIter "RED".toList⟩

def tokPat : Pattern :=
  ⟨"tok".toList, [], "SECRET".toList, "[REDACTED_TOK]".toList, findIter "tok".toList⟩

def secretTok : List Char := "S3CRET!".toList

def secretPat : Pattern :=
  ⟨"s3cret-rule".toList, [], "SECRET".toList, "[REDACTED_S3CRET_RULE]".toList,
    findIter secretTok⟩

/-! ## Mitmproxy addon (`lib/vibedom/container/mitmproxy_addon.py` and
`vm/mitmproxy_addon.py`)

Request/response bodies are modelled as decoded text (`List Char`); the
UTF-8 decode-failure pass-through for binary bodies behaves like the
non-scrubbable branch of `_scrub_body` and is not modelled separately.
Python falsiness of `None` and of the empty string/list coincide in the
embedding as the empty list. -/
structure Req where
  method : List Char
  pretty_url : List Char
  host_header : List Char
  host : List Char
  content : List Char
  content_type : List Char

structure Resp where
  status_code : Nat
  content : List Char
  content_type : List Char
deriving DecidableEq

/-- One element of the `_format_findings` output; the Lean field
`originalPrefix` is the JSON key `original_prefix`. -/
structure FormattedFinding where
  pattern : List Char
  category : List Char
  originalPrefix : List Char
  original_length : Nat
  replaced_with : List Char
deriving DecidableEq

structure AuditEntry where
  method : List Char
  url : List Char
  host : List Char
  allowed : Bool
  scrubbed : Option (List FormattedFinding)
deriving DecidableEq

def SCRUBBABLE_CONTENT_TYPES : List (List Char) :=
  ["text/".toList, "application/json".toList,
    "application/x-www-form-urlencoded".toList, "application/xml".toList,
    "application/javascript".toList]

/-- Embedding of `VibedomProxy._is_scrubbable`. -/
def is_scrubbable (content_type : List Char) : Bool :=
  if content_type.isEmpty then false
  else SCRUBBABLE_CONTENT_TYPES.any fun ct => ct.isPrefixOf content_type

/-- Embedding of `VibedomProxy._scrub_body` (bodies modelled post-UTF-8-decode). -/
def scrub_body (P : List Pattern) (content : List Char) (content_type : List Char) :
    List Char × List Finding :=
  if content.isEmpty || !(is_scrubbable content_type) then (content, [])
  else
    let result := scrub P content
    if result.was_scrubbed then (result.text, result.findings) else (content, [])

/-- Embedding of `VibedomProxy._format_findings`. -/
def formatFindings (findings : List Finding) : List FormattedFinding :=
  findings.map fun f =>
    ⟨f.pattern_id, f.category, f.matched_text.take 4 ++ "***".toList,
      f.matched_text.length, f.placeholder⟩

/-- Python `flow.request.host_header or flow.request.host`. -/
def resolvedHost (req : Req) : List Char :=
  if req.host_header.isEmpty then req.host else req.host_header

/-- Embedding of `VibedomProxy.is_allowed`: the addon duplicates
`whitelist.is_domain_allowed` character for character. -/
def is_allowed (whitelist : List (List Char)) (domain : List Char) : Bool :=
  is_domain_allowed domain whitelist

/-- Embedding of `VibedomProxy.log_request`: the single JSON line appended per request;
`scrubbed` is present only when the findings list is non-empty. -/
def log_request (req : Req) (allowed : Bool) (scrubbed : List Finding) : AuditEntry :=
  { method := req.method, url := req.pretty_url, host := resolvedHost req,
    allowed := allowed,
    scrubbed := if scrubbed.isEmpty then none else some (formatFindings scrubbed) }

structure ReqOutcome where
  request : Req
  response : Option Resp
  audit : List AuditEntry

/-- Embedding of `VibedomProxy.request` of the container addon.  `_scrub_url` (built on
urllib's parse/encode, not embedded) enters as the `urlScrub` parameter and
is universally quantified in the theorems about this hook. -/
def requestHook (whitelist : List (List Char)) (P : List Pattern)
    (urlScrub : List Char → List Char × List Finding) (req : Req) : ReqOutcome :=
  let domain := resolvedHost req
  let us := urlScrub req.pretty_url
  let step1 := if us.1 ≠ req.pretty_url
    then ({req with pretty_url := us.1}, us.2) else (req, ([] : List Finding))
  let step2 :=
    if step1.1.content.isEmpty then step1
    else
      let sb := scrub_body P step1.1.content step1.1.content_type
      if sb.2.isEmpty then step1
      else ({step1.1 with content := sb.1}, step1.2 ++ sb.2)
  let entry := log_request step2.1 (is_allowed whitelist domain) step2.2
  let resp := if is_allowed whitelist domain then none
    else some (⟨403, "Domain not whitelisted by vibedom".toList, "text/plain".toList⟩ : Resp)
  ⟨step2.1, resp, [entry]⟩

/-- Modelled from the spec: mitmproxy forwards the request to the real
upstream only when the request hook has left `flow.response` unset; a
synthesized response terminates the request locally. -/
def upstreamContacted (o : ReqOutcome) : Bool := o.response.isNone

/-- The `_log_scrub_event` entry of `vm/mitmproxy_addon.py`. -/
structure ScrubLogEntry where
  type : List Char
  url : List Char
  scrubbed : List FormattedFinding
deriving DecidableEq

/-- Embedding of `VibedomProxy.response` of `vm/mitmproxy_addon.py`: scrubs the response
body when present and text-like; `_log_scrub_event` appends an entry only
when there are findings. -/
def responseHook (P : List Pattern) (url : List Char) (resp : Resp) :
    Resp × Option ScrubLogEntry :=
  let step :=
    if resp.content.isEmpty then (resp, ([] : List Finding))
    else
      let sb := scrub_body P resp.content resp.content_type
      if sb.2.isEmpty then (resp, ([] : List Finding))
      else ({resp with content := sb.1}, sb.2)
  (step.1, if step.2.isEmpty then none
    else some ⟨"response_scrub".toList, url, formatFindings step.2⟩)

theorem splitDot_ne_nil (s : List Char) : splitDot s ≠ [] := by
  cases s with
  | nil => simp [splitDot]
  | cons c rest =>
    simp only [splitDot]
    cases splitDot rest with
    | nil => simp
    | cons p ps =>
      by_cases hc : c = '.' <;> simp [hc]

/-- Joining with dots undoes `split('.')`. -/
theorem joinDot_splitDot (s : List Char) : joinDot (splitDot s) = s := by
  induction s with
  | nil => rfl
  | cons c rest ih =>
    simp only [splitDot]
    cases hs : splitDot rest with
    | nil => exact absurd hs (splitDot_ne_nil rest)
    | cons p ps =>
      rw [hs] at ih
      by_cases hc : c = '.'
      · subst hc
        simpa [joinDot] using ih
      · simp only [if_neg hc]
        cases ps with
        | nil => simpa [joinDot] using ih
        | cons q ps' => simpa [joinDot, List.cons_append] using ih

theorem contains_iff_mem (l : List (List Char)) (a : List Char) :
    l.contains a = true ↔ a ∈ l := by
  simp

theorem is_domain_allowed_iff (domain : List Char) (whitelist : List (List Char)) :
    is_domain_allowed domain whitelist = true ↔ allowedSpec domain whitelist := by
  unfold is_domain_allowed allowedSpec
  by_cases hmem : whitelist.contains (toLowerStr domain) = true
  · simp only [if_pos hmem, true_iff]
    exact Or.inl ((contains_iff_mem _ _).mp hmem)
  · simp only [if_neg hmem, List.any_eq_true, List.mem_range]
    constructor
    · rintro ⟨i, hi, hcont⟩
      rcases Nat.eq_zero_or_pos i with hz | hpos
      · subst hz
        rw [List.drop_zero, joinDot_splitDot] at hcont
        exact Or.inl ((contains_iff_mem _ _).mp hcont)
      · exact Or.inr ⟨i, hpos, hi, (contains_iff_mem _ _).mp hcont⟩
    · rintro (hcase | ⟨i, _, hi, hin⟩)
      · exact absurd ((contains_iff_mem _ _).mpr hcase) hmem
      · exact ⟨i, hi, (contains_iff_mem _ _).mpr hin⟩

/-! ### findIter lemmas -/
theorem findIterAux_nil (pat : List Char) :
    ∀ fuel pos, findIterAux pat fuel [] pos = [] := by
  intro fuel pos
  cases fuel with
  | zero => rfl
  | succ f =>
    cases pat with
    | nil => rfl
    | cons a p => rfl

theorem isPrefixOf_false_of_head_ne {a c : Char} {p t : List Char} (h : a ≠ c) :
    (a :: p).isPrefixOf (c :: t) = false := by
  show (a == c && p.isPrefixOf t) = false
  simp [h]

theorem findIterAux_skip {pat : List Char} {a c : Char} {p : List Char}
    (hpat : pat = a :: p) (hc : c ≠ a) (fuel : Nat) (t : List Char) (pos : Nat) :
    findIterAux pat (fuel + 1) (c :: t) pos = findIterAux pat fuel t (pos + 1) := by
  subst hpat
  show (if (a :: p).isEmpty = true then _ else _) = _
  rw [if_neg (by simp), if_neg (by simp [isPrefixOf_false_of_head_ne (fun h => hc h.symm)])]

theorem findIterAux_match {pat : List Char} (hne : pat ≠ []) (fuel : Nat)
    (rest : List Char) (pos : Nat) :
    findIterAux pat (fuel + 1) (pat ++ rest) pos =
      (pos, pos + pat.length, pat) :: findIterAux pat fuel rest (pos + pat.length) := by
  show (if pat.isEmpty = true then _ else _) = _
  rw [if_neg (by simp [hne]),
    if_pos ( List.isPrefixOf_iff_prefix.mpr (List.prefix_append pat rest)),
    List.drop_left pat rest]

theorem findIterAux_head_not_mem {pat : List Char} {a : Char} {p : List Char}
    (hpat : pat = a :: p) :
    ∀ fuel t pos, t.length ≤ fuel → a ∉ t → findIterAux pat fuel t pos = [] := by
  intro fuel
  induction fuel with
  | zero =>
    intro t pos hlen _
    have : t = [] := List.eq_nil_of_length_eq_zero (by omega)
    subst this; rfl
  | succ f ih =>
    intro t pos hlen hmem
    cases t with
    | nil => exact findIterAux_nil pat _ pos
    | cons c rest =>
      have hca : c ≠ a := fun h => hmem (h ▸ List.mem_cons_self c rest)
      rw [findIterAux_skip hpat hca]
      simp only [List.length_cons] at hlen
      exact ih rest (pos + 1) (by omega) (fun h => hmem (List.mem_cons_of_mem c h))

theorem findIterAux_skip_replicate {pat : List Char} {a c : Char} {p : List Char}
    (hpat : pat = a :: p) (hc : c ≠ a) :
    ∀ n fuel pos rest, n ≤ fuel →
      findIterAux pat fuel (List.replicate n c ++ rest) pos =
        findIterAux pat (fuel - n) rest (pos + n) := by
  intro n
  induction n with
  | zero => intro fuel pos rest _; simp
  | succ m ih =>
    intro fuel pos rest hle
    obtain ⟨f, rfl⟩ : ∃ f, fuel = f + 1 := ⟨fuel - 1, by omega⟩
    rw [List.replicate_succ, List.cons_append, findIterAux_skip hpat hc,
      ih f (pos + 1) rest (by omega)]
    congr 1
    · omega
    · omega

theorem findIterAux_fuel_irrel (pat : List Char) :
    ∀ fuel fuel' t pos, t.length ≤ fuel → t.length ≤ fuel' →
      findIterAux pat fuel t pos = findIterAux pat fuel' t pos := by
  intro fuel
  induction fuel with
  | zero =>
    intro fuel' t pos h h'
    have : t = [] := List.eq_nil_of_length_eq_zero (by omega)
    subst this
    rw [findIterAux_nil, findIterAux_nil]
  | succ f ih =>
    intro fuel' t pos h h'
    cases t with
    | nil => rw [findIterAux_nil, findIterAux_nil]
    | cons c rest =>
      simp only [List.length_cons] at h h'
      obtain ⟨f', rfl⟩ : ∃ g, fuel' = g + 1 := ⟨fuel' - 1, by omega⟩
      by_cases h0 : pat.isEmpty = true
      · have e1 : ∀ g, findIterAux pat (g + 1) (c :: rest) pos = [] := by
          intro g
          show (if pat.isEmpty = true then _ else _) = _
          rw [if_pos h0]
        rw [e1, e1]
      · by_cases h1 : pat.isPrefixOf (c :: rest) = true
        · have hne : pat ≠ [] := by simpa [List.isEmpty_iff] using h0
          obtain ⟨suf, hsuf⟩ := List.isPrefixOf_iff_prefix.mp h1
          have hplen : 0 < pat.length := List.length_pos.mpr hne
          have hlen : pat.length + suf.length = rest.length + 1 := by
            have := congrArg List.length hsuf
            simpa using this
          rw [← hsuf, findIterAux_match hne, findIterAux_match hne,
            ih f' suf (pos + pat.length) (by omega) (by omega)]
        · have step : ∀ g, findIterAux pat (g + 1) (c :: rest) pos =
              findIterAux pat g rest (pos + 1) := by
            intro g
            show (if pat.isEmpty = true then _ else _) = _
            rw [if_neg h0, if_neg h1]
          rw [step, step, ih f' rest (pos + 1) (by omega) (by omega)]

theorem findIter_wf (pat : List Char) :
    ∀ t, ∀ m ∈ findIter pat t, m.1 ≤ m.2.1 ∧ m.2.1 ≤ t.length := by
  suffices h : ∀ fuel t pos, ∀ m ∈ findIterAux pat fuel t pos,
      pos ≤ m.1 ∧ m.1 ≤ m.2.1 ∧ m.2.1 ≤ pos + t.length by
    intro t m hm
    have := h t.length t 0 m hm
    omega
  intro fuel
  induction fuel with
  | zero => intro t pos m hm; simp [findIterAux] at hm
  | succ f ih =>
    intro t pos m hm
    by_cases h0 : pat.isEmpty = true
    · rw [show findIterAux pat (f + 1) t pos = [] from by
        show (if pat.isEmpty = true then _ else _) = _
        rw [if_pos h0]] at hm
      simp at hm
    · by_cases h1 : pat.isPrefixOf t = true
      · obtain ⟨suf, hsuf⟩ := List.isPrefixOf_iff_prefix.mp h1
        have hne : pat ≠ [] := by simpa [List.isEmpty_iff] using h0
        rw [← hsuf, findIterAux_match hne] at hm
        rcases List.mem_cons.mp hm with hm | hm
        · subst hm
          have : pat.length + suf.length = t.length := by rw [← hsuf]; simp
          dsimp only
          omega
        · have := ih suf (pos + pat.length) m hm
          have hlen : pat.length + suf.length = t.length := by rw [← hsuf]; simp
          omega
      · cases t with
        | nil =>
          rw [findIterAux_nil] at hm
          simp at hm
        | cons c rest =>
          have step : findIterAux pat (f + 1) (c :: rest) pos =
              findIterAux pat f rest (pos + 1) := by
            show (if pat.isEmpty = true then _ else _) = _
            rw [if_neg h0, if_neg h1]
          rw [step] at hm
          have := ih rest (pos + 1) m hm
          simp only [List.length_cons]
          omega

theorem startMatch_wf (pat : List Char) :
    ∀ t, ∀ m ∈ startMatch pat t, m.1 ≤ m.2.1 ∧ m.2.1 ≤ t.length := by
  intro t m hm
  unfold startMatch at hm
  split at hm
  · simp at hm
  · split at hm
    · rename_i hpre
      simp only [List.mem_singleton] at hm
      subst hm
      exact ⟨by omega, ( List.isPrefixOf_iff_prefix.mp hpre).length_le⟩
    · simp at hm

/-! ### Sorting, filtering and candidate lemmas -/
theorem insertDescBy_perm (key : α → Nat) (x : α) (l : List α) :
    List.Perm (insertDescBy key x l) (x :: l) := by
  induction l with
  | nil => simp [insertDescBy]
  | cons y ys ih =>
    by_cases h : key x ≤ key y
    · simpa [insertDescBy, h] using ((ih.cons y).trans (List.Perm.swap x y ys))
    · simp [insertDescBy, h]

theorem sortDescBy_perm (key : α → Nat) (l : List α) :
    List.Perm (sortDescBy key l) l := by
  suffices h : ∀ acc : List α,
      List.Perm (l.foldl (fun acc x => insertDescBy key x acc) acc) (acc ++ l) by
    simpa using h []
  induction l with
  | nil => simp
  | cons x xs ih =>
    intro acc
    simp only [List.foldl_cons]
    exact ((ih (insertDescBy key x acc)).trans
      (((insertDescBy_perm key x acc).append_right xs).trans List.perm_middle.symm))

theorem mem_sortDescBy {key : α → Nat} {l : List α} {a : α} :
    a ∈ sortDescBy key l ↔ a ∈ l :=
  (sortDescBy_perm key l).mem_iff

theorem mem_filterOverlaps {c : Cand} :
    ∀ {l : List Cand} {m : Nat}, c ∈ filterOverlaps l m → c ∈ l := by
  intro l
  induction l with
  | nil => intro m h; simpa [filterOverlaps] using h
  | cons d ds ih =>
    intro m h
    by_cases hd : d.e ≤ m
    · simp only [filterOverlaps, if_pos hd, List.mem_cons] at h
      rcases h with h | h
      · exact h ▸ List.mem_cons_self d ds
      · exact List.mem_cons_of_mem d (ih h)
    · simp only [filterOverlaps, if_neg hd] at h
      exact List.mem_cons_of_mem d (ih h)

/-- The overlap filter emits candidates whose ends stay below `min_start`
and, walking right to left, each kept end is at most the previous start. -/
theorem filterOverlaps_bounds {l : List Cand} (hse : ∀ c ∈ l, c.s ≤ c.e) :
    ∀ m : Nat, (∀ c ∈ filterOverlaps l m, c.e ≤ m) ∧
      List.Pairwise (fun a b => b.e ≤ a.s) (filterOverlaps l m) := by
  induction l with
  | nil => intro m; simp [filterOverlaps]
  | cons d ds ih =>
    intro m
    have hdse : d.s ≤ d.e := hse d (List.mem_cons_self d ds)
    have hds : ∀ c ∈ ds, c.s ≤ c.e := fun c hc => hse c (List.mem_cons_of_mem d hc)
    by_cases hd : d.e ≤ m
    · obtain ⟨hbnd, hpair⟩ := ih hds d.s
      refine ⟨?_, ?_⟩
      · intro c hc
        simp only [filterOverlaps, if_pos hd, List.mem_cons] at hc
        rcases hc with hc | hc
        · exact hc ▸ hd
        · exact le_trans (hbnd c hc) (le_trans hdse hd)
      · simp only [filterOverlaps, if_pos hd]
        exact List.Pairwise.cons (fun b hb => hbnd b hb) hpair
    · obtain ⟨hbnd, hpair⟩ := ih hds m
      exact ⟨fun c hc => hbnd c (by simpa [filterOverlaps, if_neg hd] using hc),
        by simpa [filterOverlaps, if_neg hd] using hpair⟩

theorem allCandidates_mem {P : List Pattern} {text : List Char} {c : Cand}
    (h : c ∈ allCandidates P text) :
    ∃ p ∈ P, ∃ m ∈ p.matcher text,
      c = ⟨m.1, m.2.1, ⟨p.id, p.category, m.2.2, m.1, m.2.1, p.placeholder⟩, p⟩ := by
  simp only [allCandidates, List.mem_flatMap, List.mem_map] at h
  obtain ⟨p, hp, m, hm, hc⟩ := h
  exact ⟨p, hp, m, hm, hc.symm⟩

theorem allCandidates_shape {P : List Pattern} {text : List Char} {c : Cand}
    (hwf : wfPatterns P) (h : c ∈ allCandidates P text) :
    c.s ≤ c.e ∧ c.e ≤ text.length ∧ c.finding.start = c.s ∧ c.finding.endPos = c.e := by
  obtain ⟨p, hp, m, hm, hc⟩ := allCandidates_mem h
  obtain ⟨h1, h2⟩ := hwf p hp text m hm
  subst hc
  exact ⟨h1, h2, rfl, rfl⟩

theorem chunkCandidates_mem {P : List Pattern} {chunk : List Char} {offset : Nat}
    {c : Cand} (h : c ∈ chunkCandidates P chunk offset) :
    ∃ p ∈ P, ∃ m ∈ p.matcher chunk,
      c = ⟨m.1 + offset, m.2.1 + offset,
        ⟨p.id, p.category, m.2.2, m.1 + offset, m.2.1 + offset, p.placeholder⟩, p⟩ := by
  simp only [chunkCandidates, List.mem_flatMap, List.mem_map] at h
  obtain ⟨p, hp, m, hm, hc⟩ := h
  exact ⟨p, hp, m, hm, hc.symm⟩

theorem chunkCandidates_shape {P : List Pattern} {chunk : List Char} {offset : Nat}
    {c : Cand} (hwf : wfPatterns P) (h : c ∈ chunkCandidates P chunk offset) :
    c.s ≤ c.e ∧ c.e ≤ chunk.length + offset ∧
      c.finding.start = c.s ∧ c.finding.endPos = c.e := by
  obtain ⟨p, hp, m, hm, hc⟩ := chunkCandidates_mem h
  obtain ⟨h1, h2⟩ := hwf p hp chunk m hm
  subst hc
  refine ⟨?_, ?_, rfl, rfl⟩ <;> dsimp only <;> omega

theorem mem_dedupAux {f : Finding} :
    ∀ {l : List Finding} {seen : List (List Char × Nat × Nat)},
      f ∈ dedupAux seen l → f ∈ l := by
  intro l
  induction l with
  | nil => intro seen h; simpa [dedupAux] using h
  | cons g gs ih =>
    intro seen h
    simp only [dedupAux] at h
    by_cases hs : seen.contains (g.pattern_id, g.start, g.endPos)
    · simp only [if_pos hs] at h
      exact List.mem_cons_of_mem g (ih h)
    · simp only [if_neg hs, List.mem_cons] at h
      rcases h with h | h
      · exact h ▸ List.mem_cons_self g gs
      · exact List.mem_cons_of_mem g (ih h)

theorem mem_deduplicate_findings {f : Finding} {l : List Finding}
    (h : f ∈ deduplicate_findings l) : f ∈ l :=
  mem_dedupAux h

theorem CHUNK_SIZE_pos : 0 < CHUNK_SIZE := by decide

/-- Every finding of a chunk scan is the finding of some chunk candidate. -/
theorem scrubChunk_findings_sub {P : List Pattern} {chunk : List Char}
    {offset : Nat} :
    ∀ f ∈ (scrubChunk P chunk offset).findings,
      ∃ c ∈ chunkCandidates P chunk offset, f = c.finding := by
  intro f hf
  unfold scrubChunk at hf
  dsimp only at hf
  split at hf
  · simp at hf
  · rw [List.mem_reverse] at hf
    obtain ⟨c, hc, hfc⟩ := List.mem_map.mp hf
    exact ⟨c, mem_sortDescBy.mp (mem_filterOverlaps hc), hfc.symm⟩

/-- Findings of a chunk scan lie inside `[0, offset + len chunk)`. -/
theorem scrubChunk_findings_bounds {P : List Pattern} {chunk : List Char}
    {offset : Nat} (hwf : wfPatterns P) :
    ∀ f ∈ (scrubChunk P chunk offset).findings,
      f.start ≤ f.endPos ∧ f.endPos ≤ chunk.length + offset := by
  intro f hf
  obtain ⟨c, hc, hfc⟩ := scrubChunk_findings_sub f hf
  obtain ⟨h1, h2, h3, h4⟩ := chunkCandidates_shape hwf hc
  subst hfc
  omega

theorem scrubLargeAux_findings_bounds {P : List Pattern} {text : List Char}
    (hwf : wfPatterns P) :
    ∀ offset, ∀ f ∈ scrubLargeAux P text offset,
      f.start ≤ f.endPos ∧ f.endPos ≤ text.length := by
  suffices h : ∀ n offset, text.length - offset ≤ n →
      ∀ f ∈ scrubLargeAux P text offset,
        f.start ≤ f.endPos ∧ f.endPos ≤ text.length by
    intro offset; exact h text.length offset (by omega)
  intro n
  induction n with
  | zero =>
    intro offset hn f hf
    rw [scrubLargeAux] at hf
    simp only [if_neg (by omega : ¬ offset < text.length)] at hf
    simp at hf
  | succ n ih =>
    intro offset hn f hf
    rw [scrubLargeAux] at hf
    by_cases hlt : offset < text.length
    · simp only [if_pos hlt, List.mem_append] at hf
      rcases hf with hf | hf
      · obtain ⟨h1, h2⟩ := scrubChunk_findings_bounds hwf f hf
        have hlen : ((text.drop offset).take (CHUNK_SIZE + OVERLAP)).length ≤
            text.length - offset := by
          simp [List.length_take, List.length_drop]
        omega
      · have hC := CHUNK_SIZE_pos
        exact ih (offset + CHUNK_SIZE) (by omega) f hf
    · simp only [if_neg hlt] at hf
      simp at hf

/-- C10 counterexample: for a loaded rule regex `(a)|(b)` scanned over the
text `b`, Python's match has `span = (0, 1)` and `lastindex = 2` (truthy)
while group 1 did not participate, so `match.start(1) = match.end(1) = -1`;
the extraction step of `DLPScrubber.scrub` then takes the group-1 span and
builds a Finding with `start = end = -1`, violating `0 ≤ start` — the claim
fails for a rule-file regex that defines a capturing group. -/
theorem C10_counterexample :
    extractSpan ⟨0, 1, some 2, -1, -1⟩ = (-1, -1) ∧
    ¬ (0 : Int) ≤ (extractSpan ⟨0, 1, some 2, -1, -1⟩).1 :=
  ⟨rfl, by decide⟩

/-- C10 (amended): every Finding produced by `scrub` — on the direct path
or the chunked large-text path, whose offset translation is verified here —
has `start ≤ end ≤ len text` provided every span the matchers report lies
inside the scanned text; this holds for whole-match spans and participating
capture-group spans, but not for a rule-file regex whose first capturing
group fails to participate in a match, which makes Python report
`start = end = -1` (see `C10_counterexample`). -/
theorem C10_finding_spans_in_bounds (P : List Pattern) (text : List Char)
    (hwf : ∀ p ∈ P, ∀ t : List Char, ∀ m ∈ p.matcher t, m.1 ≤ m.2.1 ∧ m.2.1 ≤ t.length) :
    ∀ f ∈ (scrub P text).findings, f.start ≤ f.endPos ∧ f.endPos ≤ text.length := by
  intro f hf
  unfold scrub at hf
  split at hf
  · simp at hf
  · split at hf
    · unfold scrubLargeText at hf
      dsimp only at hf
      split at hf
      · simp at hf
      · rw [List.mem_reverse] at hf
        have hf2 : f ∈ scrubLargeAux P text 0 :=
          mem_deduplicate_findings (mem_sortDescBy.mp hf)
        exact scrubLargeAux_findings_bounds hwf 0 f hf2
    · dsimp only at hf
      split at hf
      · simp at hf
      · rw [List.mem_reverse] at hf
        obtain ⟨c, hc, hfc⟩ := List.mem_map.mp hf
        have hc2 : c ∈ allCandidates P text :=
          mem_sortDescBy.mp (mem_filterOverlaps hc)
        obtain ⟨h1, h2, h3, h4⟩ := allCandidates_shape hwf hc2
        subst hfc
        omega

/-! ### Small-path scrub equations -/
theorem sortDescBy_pair (key : α → Nat) (x y : α) :
    sortDescBy key [x, y] = if key y ≤ key x then [x, y] else [y, x] := by
  by_cases h : key y ≤ key x <;> simp [sortDescBy, insertDescBy, h]

theorem scrub_small_eq (P : List Pattern) (text : List Char)
    (hne : text.isEmpty = false) (hsz : ¬ MAX_SCRUB_SIZE < text.length)
    (hnonempty : (allCandidates P text).isEmpty = false) :
    scrub P text =
      ⟨(filterOverlaps (sortDescBy (fun c => c.s) (allCandidates P text)) text.length).foldl
          (fun t c => replaceSpan t c.s c.e c.pattern.placeholder) text,
        ((filterOverlaps (sortDescBy (fun c => c.s) (allCandidates P text))
          text.length).map (fun c => c.finding)).reverse⟩ := by
  unfold scrub
  rw [if_neg (by simp [hne]), if_neg hsz]
  dsimp only
  rw [if_neg (by simp [hnonempty])]

theorem scrub_no_candidates (P : List Pattern) (t : List Char)
    (hsz : t.length ≤ MAX_SCRUB_SIZE) (hnone : allCandidates P t = []) :
    scrub P t = ⟨t, []⟩ := by
  unfold scrub
  by_cases he : t.isEmpty = true
  · rw [if_pos he]
  · rw [if_neg he, if_neg (by omega)]
    dsimp only
    rw [if_pos (by simp [hnone])]

/-- C4 (amended): on the non-chunked path (`len ≤ MAX_SCRUB_SIZE`), the
findings of one ScrubResult are pairwise non-overlapping (in left-to-right
order each finding ends before the next starts), provided the matchers
report spans inside the scanned text. -/
theorem C4_nonchunked_findings_nonoverlapping (P : List Pattern) (text : List Char)
    (hwf : ∀ p ∈ P, ∀ t : List Char, ∀ m ∈ p.matcher t, m.1 ≤ m.2.1 ∧ m.2.1 ≤ t.length)
    (hsize : text.length ≤ MAX_SCRUB_SIZE) :
    List.Pairwise (fun f g => f.endPos ≤ g.start) (scrub P text).findings := by
  unfold scrub
  by_cases he : text.isEmpty = true
  · rw [if_pos he]; simp
  · rw [if_neg he, if_neg (by omega)]
    dsimp only
    by_cases hm : (allCandidates P text).isEmpty = true
    · rw [if_pos hm]; simp
    · rw [if_neg hm]
      dsimp only
      rw [List.pairwise_reverse, List.pairwise_map]
      have hse : ∀ c ∈ sortDescBy (fun c => c.s) (allCandidates P text), c.s ≤ c.e :=
        fun c hc => (allCandidates_shape hwf (mem_sortDescBy.mp hc)).1
      have hpair := (filterOverlaps_bounds hse text.length).2
      refine hpair.imp_of_mem ?_
      intro a b ha hb hr
      have sa := allCandidates_shape hwf (mem_sortDescBy.mp (mem_filterOverlaps ha))
      have sb := allCandidates_shape hwf (mem_sortDescBy.mp (mem_filterOverlaps hb))
      rw [sb.2.2.2, sa.2.2.1]
      exact hr

theorem C4_nonchunked_witness :
    (∀ p ∈ [abPat], ∀ t : List Char, ∀ m ∈ p.matcher t, m.1 ≤ m.2.1 ∧ m.2.1 ≤ t.length) ∧
    "xabx".toList.length ≤ MAX_SCRUB_SIZE ∧
    List.Pairwise (fun f g => f.endPos ≤ g.start) (scrub [abPat] "xabx".toList).findings := by
  have hwf : ∀ p ∈ [abPat], ∀ t : List Char, ∀ m ∈ p.matcher t,
      m.1 ≤ m.2.1 ∧ m.2.1 ≤ t.length := by
    intro p hp t m hm
    simp only [List.mem_singleton] at hp
    subst hp
    exact findIter_wf "ab".toList t m hm
  exact ⟨hwf, by decide,
    C4_nonchunked_findings_nonoverlapping [abPat] "xabx".toList hwf (by decide)⟩

/-- C5: when the patterns produce exactly two overlapping candidate spans
with distinct starts (both inside the text, text within the size limit),
`scrub` reports exactly the candidate with the larger start, and the
returned text substitutes the placeholder into exactly that span — the other
candidate's span receives no placeholder at all. -/
theorem C5_overlap_tiebreak (P : List Pattern) (text : List Char) (c1 c2 : Cand)
    (hc : allCandidates P text = [c1, c2])
    (h1 : c1.s ≤ c1.e) (h1b : c1.e ≤ text.length)
    (h2 : c2.s ≤ c2.e) (h2b : c2.e ≤ text.length)
    (hne : c1.s ≠ c2.s)
    (hov1 : c1.s < c2.e) (hov2 : c2.s < c1.e)
    (hsize : text.length ≤ MAX_SCRUB_SIZE) :
    (scrub P text).findings = [(if c1.s < c2.s then c2 else c1).finding] ∧
    (scrub P text).text =
      text.take (if c1.s < c2.s then c2 else c1).s ++
        (if c1.s < c2.s then c2 else c1).pattern.placeholder ++
        text.drop (if c1.s < c2.s then c2 else c1).e := by
  have hnil : text ≠ [] := by
    intro hh
    subst hh
    simp only [List.length_nil] at h1b
    omega
  have hempty : text.isEmpty = false := by simpa [List.isEmpty_iff] using hnil
  have hnonempty : (allCandidates P text).isEmpty = false := by rw [hc]; rfl
  rw [scrub_small_eq P text hempty (by omega) hnonempty]
  dsimp only
  rw [hc, sortDescBy_pair]
  by_cases hlt : c1.s < c2.s
  · rw [if_neg (by omega), if_pos hlt]
    have hfil : filterOverlaps [c2, c1] text.length = [c2] := by
      simp only [filterOverlaps]
      rw [if_pos h2b, if_neg (by omega : ¬ c1.e ≤ c2.s)]
    rw [hfil]
    exact ⟨by simp, by simp [replaceSpan]⟩
  · rw [if_pos (by omega), if_neg hlt]
    have hfil : filterOverlaps [c1, c2] text.length = [c1] := by
      simp only [filterOverlaps]
      rw [if_pos h1b, if_neg (by omega : ¬ c2.e ≤ c1.s)]
    rw [hfil]
    exact ⟨by simp, by simp [replaceSpan]⟩

/-- C9 counterexample: a loaded rule whose regex matches `RED` (any rule
file may contain one) re-matches inside the substituted placeholder
`[REDACTED_RED]`, so a second scrub changes the text again. -/
theorem C9_counterexample :
    (scrub [redPat] (scrub [redPat] "RED".toList).text).text ≠
      (scrub [redPat] "RED".toList).text := by decide


theorem C10_witness :
    (∀ p ∈ [abPat], ∀ t : List Char, ∀ m ∈ p.matcher t, m.1 ≤ m.2.1 ∧ m.2.1 ≤ t.length) ∧
    ∀ f ∈ (scrub [abPat] "xaby".toList).findings,
      f.start ≤ f.endPos ∧ f.endPos ≤ "xaby".toList.length := by
  have hwf : ∀ p ∈ [abPat], ∀ t : List Char, ∀ m ∈ p.matcher t,
      m.1 ≤ m.2.1 ∧ m.2.1 ≤ t.length := by
    intro p hp t m hm
    simp only [List.mem_singleton] at hp
    subst hp
    exact findIter_wf "ab".toList t m hm
  exact ⟨hwf, C10_finding_spans_in_bounds [abPat] "xaby".toList hwf⟩

/-! ### Chunked-path equations -/
theorem scrub_large_eq (P : List Pattern) (text : List Char)
    (h : MAX_SCRUB_SIZE < text.length) : scrub P text = scrubLargeText P text := by
  unfold scrub
  have hne : text ≠ [] := by
    intro hh
    rw [hh] at h
    simp [MAX_SCRUB_SIZE] at h
  rw [if_neg (by simpa [List.isEmpty_iff] using hne), if_pos h]

theorem scrubLargeAux_step (P : List Pattern) (text : List Char) (offset : Nat)
    (h : offset < text.length) :
    scrubLargeAux P text offset =
      (scrubChunk P ((text.drop offset).take (CHUNK_SIZE + OVERLAP)) offset).findings
        ++ scrubLargeAux P text (offset + CHUNK_SIZE) := by
  rw [scrubLargeAux, if_pos h]

theorem scrubLargeAux_stop (P : List Pattern) (text : List Char) (offset : Nat)
    (h : ¬ offset < text.length) : scrubLargeAux P text offset = [] := by
  rw [scrubLargeAux, if_neg h]

theorem scrubChunk_no_matches (P : List Pattern) (chunk : List Char) (offset : Nat)
    (h : chunkCandidates P chunk offset = []) : scrubChunk P chunk offset = ⟨chunk, []⟩ := by
  unfold scrubChunk
  rw [if_pos (by simp [h])]

theorem sortDescBy_single (key : α → Nat) (x : α) : sortDescBy key [x] = [x] := rfl

theorem filterOverlaps_single (c : Cand) (m : Nat) (h : c.e ≤ m) :
    filterOverlaps [c] m = [c] := by
  simp only [filterOverlaps]
  rw [if_pos h]

theorem scrubChunk_single (P : List Pattern) (chunk : List Char) (offset : Nat)
    (c : Cand) (h : chunkCandidates P chunk offset = [c])
    (hb : c.e ≤ chunk.length + offset) :
    (scrubChunk P chunk offset).findings = [c.finding] := by
  unfold scrubChunk
  rw [if_neg (by simp [h])]
  dsimp only
  rw [h, sortDescBy_single, filterOverlaps_single c _ hb]
  simp

theorem dedup_single (f : Finding) : deduplicate_findings [f] = [f] := rfl

theorem contains_key_iff (s : List (List Char × Nat × Nat)) (k : List Char × Nat × Nat) :
    s.contains k = true ↔ k ∈ s := by
  simp

theorem dedup_pair_ne (f g : Finding)
    (h : (f.pattern_id, f.start, f.endPos) ≠ (g.pattern_id, g.start, g.endPos)) :
    deduplicate_findings [f, g] = [f, g] := by
  show dedupAux [] [f, g] = [f, g]
  rw [dedupAux, if_neg (by rw [contains_key_iff]; simp)]
  rw [dedupAux, if_neg (by
    rw [contains_key_iff]
    simp only [List.mem_singleton]
    exact fun hh => h hh.symm)]
  rfl

theorem scrubLargeText_single (P : List Pattern) (text : List Char) (f : Finding)
    (h : scrubLargeAux P text 0 = [f]) :
    scrubLargeText P text = ⟨replaceSpan text f.start f.endPos f.placeholder, [f]⟩ := by
  unfold scrubLargeText
  rw [h]
  dsimp only
  rw [dedup_single, if_neg (by simp), sortDescBy_single]
  simp

theorem sortDescBy_finding_pair (f g : Finding) :
    sortDescBy (fun x => x.start) [f, g] =
      if g.start ≤ f.start then [f, g] else [g, f] :=
  sortDescBy_pair _ f g

theorem scrubLargeText_pair_findings (P : List Pattern) (text : List Char)
    (f g : Finding) (h : scrubLargeAux P text 0 = [f, g])
    (hk : (f.pattern_id, f.start, f.endPos) ≠ (g.pattern_id, g.start, g.endPos))
    (horder : f.start < g.start) :
    (scrubLargeText P text).findings = [f, g] := by
  unfold scrubLargeText
  rw [h]
  dsimp only
  rw [dedup_pair_ne f g hk, if_neg (by simp), sortDescBy_finding_pair, if_neg (by omega)]
  rfl

/-! ### Literal-matcher computations -/
theorem findIter_no_head {h : Char} {pp : List Char} (pat : List Char)
    (hpat : pat = h :: pp) (t : List Char) (hmem : h ∉ t) :
    findIter pat t = [] :=
  findIterAux_head_not_mem hpat t.length t 0 le_rfl hmem

/-- A literal pattern starting with a character absent from the fill
character occurs exactly once in `fill^a ++ pat ++ fill^b`. -/
theorem findIter_sandwich {h : Char} {pp : List Char} (pat : List Char)
    (hpat : pat = h :: pp) (c : Char) (hc : h ≠ c) (a b : Nat) :
    findIter pat (List.replicate a c ++ (pat ++ List.replicate b c)) =
      [(a, a + pat.length, pat)] := by
  unfold findIter
  have hlen : (List.replicate a c ++ (pat ++ List.replicate b c)).length =
      a + (pat.length + b) := by simp
  rw [hlen]
  rw [findIterAux_skip_replicate hpat (fun hh => hc hh.symm) a (a + (pat.length + b)) 0
    (pat ++ List.replicate b c) (by omega)]
  simp only [Nat.zero_add]
  have hplen : 0 < pat.length := by simp [hpat]
  have hfe : a + (pat.length + b) - a = (pat.length + b - 1) + 1 := by omega
  rw [hfe, findIterAux_match (by simp [hpat]) _ _ _]
  rw [findIterAux_head_not_mem hpat (pat.length + b - 1) (List.replicate b c)
    (a + pat.length) (by simp; omega) (by simp [List.mem_replicate, hc])]

/-- Evaluation of `findIter "ab"` on `a^n ++ "b"`: exactly the trailing occurrence. -/
theorem findIterAux_ab :
    ∀ n fuel pos, n + 1 ≤ fuel →
      findIterAux "ab".toList fuel (List.replicate n 'a' ++ ['b']) pos =
        if n = 0 then [] else [(pos + n - 1, pos + n + 1, "ab".toList)] := by
  intro n
  induction n with
  | zero =>
    intro fuel pos hf
    obtain ⟨f, rfl⟩ : ∃ g, fuel = g + 1 := ⟨fuel - 1, by omega⟩
    simp only [List.replicate_zero, List.nil_append, if_pos rfl]
    rw [findIterAux_skip (show "ab".toList = 'a' :: "b".toList from rfl)
      (by decide) f ([] : List Char) pos]
    exact findIterAux_nil _ f (pos + 1)
  | succ m ih =>
    intro fuel pos hf
    obtain ⟨f, rfl⟩ : ∃ g, fuel = g + 1 := ⟨fuel - 1, by omega⟩
    cases m with
    | zero =>
      simp only [Nat.zero_add]
      rw [show List.replicate 1 'a' ++ ['b'] = "ab".toList ++ ([] : List Char) from rfl]
      rw [findIterAux_match (by decide) f ([] : List Char) pos]
      rw [findIterAux_nil _ f (pos + "ab".toList.length)]
      rw [if_neg (by omega)]
      have e1 : pos + 1 - 1 = pos := by omega
      have e2 : pos + 1 + 1 = pos + 2 := by omega
      rw [e1, e2]
      rfl
    | succ k =>
      rw [List.replicate_succ, List.cons_append]
      have hpre : ("ab".toList).isPrefixOf
          ('a' :: (List.replicate (k + 1) 'a' ++ ['b'])) = false := by
        show ('a' == 'a' &&
          (['b'] : List Char).isPrefixOf (List.replicate (k + 1) 'a' ++ ['b'])) = false
        rw [List.replicate_succ, List.cons_append,
          isPrefixOf_false_of_head_ne (show 'b' ≠ 'a' by decide)]
        rfl
      have step : findIterAux "ab".toList (f + 1)
          ('a' :: (List.replicate (k + 1) 'a' ++ ['b'])) pos =
          findIterAux "ab".toList f (List.replicate (k + 1) 'a' ++ ['b']) (pos + 1) := by
        show (if ("ab".toList).isEmpty = true then _ else _) = _
        rw [if_neg (by decide), if_neg (by rw [hpre]; exact Bool.false_ne_true)]
      rw [step, ih f (pos + 1) (by omega)]
      rw [if_neg (by omega)]
      rw [if_neg (by omega)]
      simp only [List.cons.injEq, Prod.mk.injEq, eq_self_iff_true, and_true]
      omega

/-! ### Chunk-boundary scenarios -/
theorem MAX_eq : MAX_SCRUB_SIZE = 512000 := rfl

theorem secretTok_cons : secretTok = 'S' :: "3CRET!".toList := rfl

theorem secretTok_len : secretTok.length = 7 := rfl

/-- C8: an oversized text consisting of a single secret occurrence whose
span crosses the first chunk boundary (starts before position 512000, ends
after it), padded with `'x'` on both sides, yields exactly one finding for
that secret — not zero and not two. -/
theorem C8_boundary_secret_reported_once (a b L : Nat)
    (hL : a + 7 + b = L) (hlo : 512000 < L) (hhi : L ≤ 1024000)
    (ha : a < 512000) (hcross : 512000 < a + 7) :
    (scrub [secretPat]
        (List.replicate a 'x' ++ (secretTok ++ List.replicate b 'x'))).findings =
      [⟨secretPat.id, secretPat.category, secretTok, a, a + 7, secretPat.placeholder⟩] := by
  have hCO : CHUNK_SIZE + OVERLAP = 514000 := rfl
  have h2C : (0 : Nat) + CHUNK_SIZE = 512000 := rfl
  have h3C : (512000 : Nat) + CHUNK_SIZE = 1024000 := rfl
  have hlen : (List.replicate a 'x' ++ (secretTok ++ List.replicate b 'x')).length = L := by
    simp only [List.length_append, List.length_replicate, secretTok_len]
    omega
  have hchunk0 : (List.replicate a 'x' ++ (secretTok ++ List.replicate b 'x')).take 514000 =
      List.replicate a 'x' ++ (secretTok ++ List.replicate (min (514000 - a - 7) b) 'x') := by
    rw [List.take_append_eq_append_take,
      List.take_of_length_le (by simp only [List.length_replicate]; omega),
      List.length_replicate, List.take_append_eq_append_take,
      List.take_of_length_le (by rw [secretTok_len]; omega),
      secretTok_len, List.take_replicate]
  have hcand0 : chunkCandidates [secretPat]
      (List.replicate a 'x' ++ (secretTok ++ List.replicate (min (514000 - a - 7) b) 'x')) 0 =
      [⟨a, a + 7,
        ⟨secretPat.id, secretPat.category, secretTok, a, a + 7, secretPat.placeholder⟩,
        secretPat⟩] := by
    simp only [chunkCandidates, List.flatMap_cons, List.flatMap_nil, List.append_nil]
    rw [show secretPat.matcher = findIter secretTok from rfl,
      findIter_sandwich secretTok secretTok_cons 'x' (by decide) a _, secretTok_len]
    simp
  have hdrop : (List.replicate a 'x' ++ (secretTok ++ List.replicate b 'x')).drop 512000 =
      secretTok.drop (512000 - a) ++ List.replicate b 'x' := by
    rw [List.drop_append_eq_append_drop, List.drop_replicate,
      show a - 512000 = 0 from by omega, List.replicate_zero, List.nil_append,
      List.length_replicate, List.drop_append_eq_append_drop, secretTok_len,
      show 512000 - a - 7 = 0 from by omega, List.drop_zero]
  have hchunk1 : ((List.replicate a 'x' ++
        (secretTok ++ List.replicate b 'x')).drop 512000).take 514000 =
      secretTok.drop (512000 - a) ++ List.replicate b 'x' := by
    rw [hdrop]
    exact List.take_of_length_le (by
      simp only [List.length_append, List.length_drop, List.length_replicate, secretTok_len]
      omega)
  have hnoS : 'S' ∉ secretTok.drop (512000 - a) ++ List.replicate b 'x' := by
    intro hmem
    rcases List.mem_append.mp hmem with hm | hm
    · rw [show 512000 - a = (512000 - a - 1) + 1 from by omega] at hm
      rw [show ((512000 - a - 1) + 1) = 1 + (512000 - a - 1) from by omega,
        ← List.drop_drop] at hm
      have hm2 : 'S' ∈ secretTok.drop 1 := List.mem_of_mem_drop hm
      exact absurd hm2 (by decide)
    · rw [List.mem_replicate] at hm
      exact absurd hm.2 (by decide)
  have hcand1 : chunkCandidates [secretPat]
      (secretTok.drop (512000 - a) ++ List.replicate b 'x') 512000 = [] := by
    simp only [chunkCandidates, List.flatMap_cons, List.flatMap_nil, List.append_nil]
    rw [show secretPat.matcher = findIter secretTok from rfl,
      findIter_no_head secretTok secretTok_cons _ hnoS]
    rfl
  have haux : scrubLargeAux [secretPat]
      (List.replicate a 'x' ++ (secretTok ++ List.replicate b 'x')) 0 =
      [⟨secretPat.id, secretPat.category, secretTok, a, a + 7, secretPat.placeholder⟩] := by
    rw [scrubLargeAux_step _ _ 0 (by rw [hlen]; omega), h2C,
      scrubLargeAux_step _ _ 512000 (by rw [hlen]; omega), h3C,
      scrubLargeAux_stop _ _ 1024000 (by rw [hlen]; omega),
      List.drop_zero, hCO, hchunk0, hchunk1,
      scrubChunk_single _ _ _ _ hcand0 (by
        simp only [List.length_append, List.length_replicate, secretTok_len]
        omega),
      scrubChunk_no_matches _ _ _ hcand1]
    simp
  rw [scrub_large_eq _ _ (by rw [hlen, MAX_eq]; omega),
    scrubLargeText_single _ _ _ haux]

theorem C8_witness :
    511997 + 7 + 0 = 512004 ∧ 512000 < 512004 ∧ 512004 ≤ 1024000 ∧
    511997 < 512000 ∧ 512000 < 511997 + 7 ∧
    (scrub [secretPat]
        (List.replicate 511997 'x' ++ (secretTok ++ List.replicate 0 'x'))).findings =
      [⟨secretPat.id, secretPat.category, secretTok, 511997, 511997 + 7,
        secretPat.placeholder⟩] :=
  ⟨by decide, by decide, by decide, by decide, by decide,
    C8_boundary_secret_reported_once 511997 0 512004 (by decide) (by decide) (by decide)
      (by decide) (by decide)⟩

/-- C3: `scrub` on an oversized text (here 512004 characters: a secret
followed by `'x'` padding) does NOT return it unchanged with empty findings:
the code routes it to `_scrub_large_text`, which scans chunked and redacts
the secret.  This contradicts the claim (and the repository's own test
`test_scrub_skips_oversized_text`). -/
theorem C3_oversized_text_is_scanned :
    MAX_SCRUB_SIZE < (secretTok ++ List.replicate 511997 'x').length ∧
    (scrub [secretPat] (secretTok ++ List.replicate 511997 'x')).findings =
      [⟨secretPat.id, secretPat.category, secretTok, 0, 7, secretPat.placeholder⟩] ∧
    (scrub [secretPat] (secretTok ++ List.replicate 511997 'x')).text =
      secretPat.placeholder ++ List.replicate 511997 'x' ∧
    (scrub [secretPat] (secretTok ++ List.replicate 511997 'x')).text ≠
      secretTok ++ List.replicate 511997 'x' := by
  have hCO : CHUNK_SIZE + OVERLAP = 514000 := rfl
  have h2C : (0 : Nat) + CHUNK_SIZE = 512000 := rfl
  have h3C : (512000 : Nat) + CHUNK_SIZE = 1024000 := rfl
  have hlen : (secretTok ++ List.replicate 511997 'x').length = 512004 := by
    rw [List.length_append, List.length_replicate, secretTok_len]
  have hchunk0 : (secretTok ++ List.replicate 511997 'x').take 514000 =
      secretTok ++ List.replicate 511997 'x' :=
    List.take_of_length_le (by rw [hlen]; omega)
  have hcand0 : chunkCandidates [secretPat] (secretTok ++ List.replicate 511997 'x') 0 =
      [⟨0, 7, ⟨secretPat.id, secretPat.category, secretTok, 0, 7, secretPat.placeholder⟩,
        secretPat⟩] := by
    simp only [chunkCandidates, List.flatMap_cons, List.flatMap_nil, List.append_nil]
    have hs := findIter_sandwich secretTok secretTok_cons 'x' (by decide) 0 511997
    simp only [List.replicate_zero, List.nil_append, secretTok_len, Nat.zero_add] at hs
    rw [show secretPat.matcher = findIter secretTok from rfl, hs]
    simp
  have hdrop : (secretTok ++ List.replicate 511997 'x').drop 512000 =
      List.replicate 4 'x' := by
    rw [List.drop_append_eq_append_drop,
      List.drop_eq_nil_of_le (by rw [secretTok_len]; omega), List.nil_append,
      secretTok_len, List.drop_replicate, show 511997 - (512000 - 7) = 4 from by omega]
  have hchunk1 : ((secretTok ++ List.replicate 511997 'x').drop 512000).take 514000 =
      List.replicate 4 'x' := by
    rw [hdrop]
    exact List.take_of_length_le (by simp only [List.length_replicate]; omega)
  have hcand1 : chunkCandidates [secretPat] (List.replicate 4 'x') 512000 = [] := by
    simp only [chunkCandidates, List.flatMap_cons, List.flatMap_nil, List.append_nil]
    rw [show secretPat.matcher = findIter secretTok from rfl,
      findIter_no_head secretTok secretTok_cons _ (by decide)]
    rfl
  have haux : scrubLargeAux [secretPat] (secretTok ++ List.replicate 511997 'x') 0 =
      [⟨secretPat.id, secretPat.category, secretTok, 0, 7, secretPat.placeholder⟩] := by
    rw [scrubLargeAux_step _ _ 0 (by rw [hlen]; omega), h2C,
      scrubLargeAux_step _ _ 512000 (by rw [hlen]; omega), h3C,
      scrubLargeAux_stop _ _ 1024000 (by rw [hlen]; omega),
      List.drop_zero, hCO, hchunk0, hchunk1,
      scrubChunk_single _ _ _ _ hcand0 (by dsimp only; rw [hlen]; omega),
      scrubChunk_no_matches _ _ _ hcand1]
    simp
  have hmain : scrub [secretPat] (secretTok ++ List.replicate 511997 'x') =
      ⟨secretPat.placeholder ++ List.replicate 511997 'x',
        [⟨secretPat.id, secretPat.category, secretTok, 0, 7, secretPat.placeholder⟩]⟩ := by
    rw [scrub_large_eq _ _ (by rw [hlen, MAX_eq]; omega),
      scrubLargeText_single _ _ _ haux]
    unfold replaceSpan
    rw [List.take_zero, List.nil_append, show (7 : Nat) = secretTok.length from rfl,
      List.drop_left]
  refine ⟨by rw [hlen, MAX_eq]; omega, by rw [hmain], by rw [hmain], ?_⟩
  rw [hmain]
  intro hcontra
  dsimp only at hcontra
  have hlc := congrArg List.length hcontra
  simp only [List.length_append, List.length_replicate, secretTok_len,
    show secretPat.placeholder.length = 22 from rfl] at hlc
  omega

/-- C4 counterexample: in the chunked path, two patterns (a literal `ab`
matcher and a `^b`-anchored matcher, both expressible as Python regexes) on
the text `a^512000 ++ "b"` produce findings `[511999, 512001)` (window 0)
and `[512000, 512001)` (window 1) that survive deduplication and overlap:
`_scrub_large_text` runs no global overlap resolution. -/
theorem C4_counterexample :
    (scrub [abPat, bStartPat] (List.replicate 512000 'a' ++ ['b'])).findings =
      [⟨abPat.id, abPat.category, "ab".toList, 511999, 512001, abPat.placeholder⟩,
        ⟨bStartPat.id, bStartPat.category, "b".toList, 512000, 512001,
          bStartPat.placeholder⟩] ∧
    ¬ List.Pairwise (fun f g => f.endPos ≤ g.start ∨ g.endPos ≤ f.start)
        (scrub [abPat, bStartPat] (List.replicate 512000 'a' ++ ['b'])).findings := by
  have hCO : CHUNK_SIZE + OVERLAP = 514000 := rfl
  have h2C : (0 : Nat) + CHUNK_SIZE = 512000 := rfl
  have h3C : (512000 : Nat) + CHUNK_SIZE = 1024000 := rfl
  have hlen : (List.replicate 512000 'a' ++ ['b']).length = 512001 := by
    rw [List.length_append, List.length_replicate]
    rfl
  have hchunk0 : (List.replicate 512000 'a' ++ ['b']).take 514000 =
      List.replicate 512000 'a' ++ ['b'] :=
    List.take_of_length_le (by rw [hlen]; omega)
  have habm0 : findIter "ab".toList (List.replicate 512000 'a' ++ ['b']) =
      [(511999, 512001, "ab".toList)] := by
    unfold findIter
    rw [hlen]
    have h := findIterAux_ab 512000 512001 0 (by omega)
    rw [if_neg (by omega), show (0 : Nat) + 512000 - 1 = 511999 from by omega,
      show (0 : Nat) + 512000 + 1 = 512001 from by omega] at h
    exact h
  have hbm0 : startMatch "b".toList (List.replicate 512000 'a' ++ ['b']) = [] := by
    have hpre : ("b".toList).isPrefixOf (List.replicate 512000 'a' ++ ['b']) = false := by
      rw [show List.replicate 512000 'a' ++ ['b'] =
        'a' :: (List.replicate 511999 'a' ++ ['b']) from by
          rw [show (512000 : Nat) = 511999 + 1 from rfl, List.replicate_succ,
            List.cons_append]]
      exact isPrefixOf_false_of_head_ne (by decide)
    unfold startMatch
    rw [if_neg (by decide), if_neg (by rw [hpre]; exact Bool.false_ne_true)]
  have hcand0 : chunkCandidates [abPat, bStartPat]
      (List.replicate 512000 'a' ++ ['b']) 0 =
      [⟨511999, 512001,
        ⟨abPat.id, abPat.category, "ab".toList, 511999, 512001, abPat.placeholder⟩,
        abPat⟩] := by
    simp only [chunkCandidates, List.flatMap_cons, List.flatMap_nil, List.append_nil]
    rw [show abPat.matcher = findIter "ab".toList from rfl, habm0,
      show bStartPat.matcher = startMatch "b".toList from rfl, hbm0]
    simp
  have hdrop : (List.replicate 512000 'a' ++ ['b']).drop 512000 = ['b'] := by
    rw [List.drop_append_eq_append_drop,
      List.drop_eq_nil_of_le (by rw [List.length_replicate]), List.nil_append,
      List.length_replicate, show (512000 : Nat) - 512000 = 0 from by omega,
      List.drop_zero]
  have hchunk1 : ((List.replicate 512000 'a' ++ ['b']).drop 512000).take 514000 =
      ['b'] := by
    rw [hdrop]
    exact List.take_of_length_le (by decide)
  have hcand1 : chunkCandidates [abPat, bStartPat] ['b'] 512000 =
      [⟨512000, 512001,
        ⟨bStartPat.id, bStartPat.category, "b".toList, 512000, 512001,
          bStartPat.placeholder⟩, bStartPat⟩] := by
    simp only [chunkCandidates, List.flatMap_cons, List.flatMap_nil, List.append_nil]
    rw [show abPat.matcher = findIter "ab".toList from rfl,
      show findIter "ab".toList ['b'] = [] from by decide,
      show bStartPat.matcher = startMatch "b".toList from rfl,
      show startMatch "b".toList ['b'] = [(0, 1, "b".toList)] from by decide]
    simp
  have haux : scrubLargeAux [abPat, bStartPat] (List.replicate 512000 'a' ++ ['b']) 0 =
      [⟨abPat.id, abPat.category, "ab".toList, 511999, 512001, abPat.placeholder⟩,
        ⟨bStartPat.id, bStartPat.category, "b".toList, 512000, 512001,
          bStartPat.placeholder⟩] := by
    rw [scrubLargeAux_step _ _ 0 (by rw [hlen]; omega), h2C,
      scrubLargeAux_step _ _ 512000 (by rw [hlen]; omega), h3C,
      scrubLargeAux_stop _ _ 1024000 (by rw [hlen]; omega),
      List.drop_zero, hCO, hchunk0, hchunk1,
      scrubChunk_single _ _ _ _ hcand0 (by dsimp only; rw [hlen]; try omega),
      scrubChunk_single _ _ _ _ hcand1 (by dsimp only; decide)]
    simp
  have hfind : (scrub [abPat, bStartPat] (List.replicate 512000 'a' ++ ['b'])).findings =
      [⟨abPat.id, abPat.category, "ab".toList, 511999, 512001, abPat.placeholder⟩,
        ⟨bStartPat.id, bStartPat.category, "b".toList, 512000, 512001,
          bStartPat.placeholder⟩] := by
    rw [scrub_large_eq _ _ (by rw [hlen, MAX_eq]; omega)]
    exact scrubLargeText_pair_findings _ _ _ _ haux (by decide) (by decide)
  refine ⟨hfind, ?_⟩
  rw [hfind]
  intro hp
  have h1 := (List.pairwise_cons.mp hp).1 _ (List.mem_cons_self _ _)
  exact absurd h1 (by decide)

/-- C2: `is_domain_allowed(h, W)` is true iff the lowercased `h` is a member
of `W` or some dot-suffix of the lowercased `h` (obtained by dropping one or
more leading labels) is a member of `W`; `API.GITHUB.COM` is allowed by
`github.com` while `githubusercontent.com` and `notgithub.com` are not. -/
theorem C2_is_domain_allowed_spec :
    (∀ (d : List Char) (W : List (List Char)),
        is_domain_allowed d W = true ↔ allowedSpec d W) ∧
    is_domain_allowed "API.GITHUB.COM".toList ["github.com".toList] = true ∧
    is_domain_allowed "githubusercontent.com".toList ["github.com".toList] = false ∧
    is_domain_allowed "notgithub.com".toList ["github.com".toList] = false :=
  ⟨is_domain_allowed_iff, by decide, by decide, by decide⟩

theorem C5_witness :
    allCandidates [abPat, bcPat] "abc".toList =
      [⟨0, 2, ⟨abPat.id, abPat.category, "ab".toList, 0, 2, abPat.placeholder⟩, abPat⟩,
        ⟨1, 3, ⟨bcPat.id, bcPat.category, "bc".toList, 1, 3, bcPat.placeholder⟩, bcPat⟩] ∧
    (0 : Nat) ≠ 1 ∧ (0 : Nat) < 3 ∧ (1 : Nat) < 2 ∧
    "abc".toList.length ≤ MAX_SCRUB_SIZE ∧
    (scrub [abPat, bcPat] "abc".toList).findings =
      [⟨bcPat.id, bcPat.category, "bc".toList, 1, 3, bcPat.placeholder⟩] ∧
    (scrub [abPat, bcPat] "abc".toList).text =
      "abc".toList.take 1 ++ bcPat.placeholder ++ "abc".toList.drop 3 := by
  have hc : allCandidates [abPat, bcPat] "abc".toList =
      [⟨0, 2, ⟨abPat.id, abPat.category, "ab".toList, 0, 2, abPat.placeholder⟩, abPat⟩,
        ⟨1, 3, ⟨bcPat.id, bcPat.category, "bc".toList, 1, 3, bcPat.placeholder⟩, bcPat⟩] :=
    rfl
  have h := C5_overlap_tiebreak [abPat, bcPat] "abc".toList _ _ hc (by decide) (by decide)
    (by decide) (by decide) (by decide) (by decide) (by decide) (by decide)
  exact ⟨hc, by decide, by decide, by decide, by decide, h.1, h.2⟩

/-- C1: when the resolved host of an intercepted request is not allowed, the
request hook synthesizes a local 403 plain-text response whose body states
the domain is not whitelisted, the upstream is never contacted, and exactly
one audit entry — with `allowed = false` — is appended; for every pattern
set, URL-scrub behaviour and request. -/
theorem C1_denied_request_blocked (whitelist : List (List Char)) (P : List Pattern)
    (urlScrub : List Char → List Char × List Finding) (req : Req)
    (hdeny : is_allowed whitelist (resolvedHost req) = false) :
    (requestHook whitelist P urlScrub req).response =
      some ⟨403, "Domain not whitelisted by vibedom".toList, "text/plain".toList⟩ ∧
    "not whitelisted".toList <:+: "Domain not whitelisted by vibedom".toList ∧
    upstreamContacted (requestHook whitelist P urlScrub req) = false ∧
    (requestHook whitelist P urlScrub req).audit.length = 1 ∧
    ∀ e ∈ (requestHook whitelist P urlScrub req).audit, e.allowed = false := by
  unfold requestHook upstreamContacted
  dsimp only
  rw [hdeny]
  refine ⟨by rw [if_neg (by simp)], by decide, by rw [if_neg (by simp)]; rfl, rfl, ?_⟩
  intro e he
  simp only [List.mem_singleton] at he
  subst he
  rfl

theorem C1_witness :
    is_allowed ["pypi.org".toList] (resolvedHost
      ⟨"GET".toList, "https://evil.example.com/".toList, "evil.example.com".toList,
        "evil.example.com".toList, [], []⟩) = false ∧
    ((requestHook ["pypi.org".toList] [] (fun u => (u, []))
        ⟨"GET".toList, "https://evil.example.com/".toList, "evil.example.com".toList,
          "evil.example.com".toList, [], []⟩).response =
      some ⟨403, "Domain not whitelisted by vibedom".toList, "text/plain".toList⟩ ∧
    "not whitelisted".toList <:+: "Domain not whitelisted by vibedom".toList ∧
    upstreamContacted (requestHook ["pypi.org".toList] [] (fun u => (u, []))
      ⟨"GET".toList, "https://evil.example.com/".toList, "evil.example.com".toList,
        "evil.example.com".toList, [], []⟩) = false ∧
    (requestHook ["pypi.org".toList] [] (fun u => (u, []))
      ⟨"GET".toList, "https://evil.example.com/".toList, "evil.example.com".toList,
        "evil.example.com".toList, [], []⟩).audit.length = 1 ∧
    ∀ e ∈ (requestHook ["pypi.org".toList] [] (fun u => (u, []))
      ⟨"GET".toList, "https://evil.example.com/".toList, "evil.example.com".toList,
        "evil.example.com".toList, [], []⟩).audit, e.allowed = false) :=
  ⟨by decide, C1_denied_request_blocked _ _ _ _ (by decide)⟩

/-- C6 counterexample: a finding whose matched text is 3 characters long
(`key`) gets the audit prefix `key***`: the full matched value appears in
the audit entry, and the "4-character prefix" has only 3 characters before
the elision marker (total length 6, not 7). -/
theorem C6_counterexample :
    (formatFindings [⟨"r".toList, "SECRET".toList, "key".toList, 0, 3,
        "[REDACTED_R]".toList⟩]).map (fun r => r.originalPrefix) = ["key***".toList] ∧
    "key".toList <:+: "key***".toList ∧
    ("key***".toList).length ≠ 4 + 3 :=
  ⟨rfl, by decide, by decide⟩

/-- C6 (amended): each audit `scrubbed` record consists of exactly the
pattern id, the category, the (at most) 4-character prefix of the matched
text followed by the `***` elision marker, the matched text's length, and
the placeholder; the full matched value never appears in the prefix field
provided it is longer than 4 characters and contains no `'*'` character —
for matches of length ≤ 4 the "prefix" is the entire matched value. -/
theorem C6_audit_truncates_secret (fs : List Finding) (r : FormattedFinding)
    (hr : r ∈ formatFindings fs) :
    ∃ f ∈ fs,
      r = ⟨f.pattern_id, f.category, f.matched_text.take 4 ++ "***".toList,
        f.matched_text.length, f.placeholder⟩ ∧
      (4 < f.matched_text.length → '*' ∉ f.matched_text →
        ¬ f.matched_text <:+: r.originalPrefix) := by
  obtain ⟨f, hf, hrf⟩ := List.mem_map.mp hr
  subst hrf
  refine ⟨f, hf, rfl, ?_⟩
  intro hlen hstar hinf
  dsimp only at hinf
  obtain ⟨u, v, huv⟩ := hinf
  have hlen4 : (f.matched_text.take 4).length = 4 := by
    rw [List.length_take]
    omega
  have hlenp : (f.matched_text.take 4 ++ "***".toList).length = 7 := by
    rw [List.length_append, hlen4]
    rfl
  have hlenuv : u.length + f.matched_text.length + v.length = 7 := by
    have := congrArg List.length huv
    simp only [List.length_append] at this
    rw [hlen4, show ("***".toList).length = 3 from rfl] at this
    omega
  have hqm : f.matched_text ++ v =
      (f.matched_text.take 4 ++ "***".toList).drop u.length := by
    rw [← huv, List.append_assoc, List.drop_left]
  have e1 : (f.matched_text.take 4 ++ "***".toList).drop
        (u.length + (f.matched_text.length - 1)) =
      f.matched_text.drop (f.matched_text.length - 1) ++ v := by
    rw [← List.drop_drop, ← hqm, List.drop_append_eq_append_drop,
      show f.matched_text.length - 1 - f.matched_text.length = 0 from by omega,
      List.drop_zero]
  have e2 : (f.matched_text.take 4 ++ "***".toList).drop
        (u.length + (f.matched_text.length - 1)) =
      ("***".toList).drop (u.length + (f.matched_text.length - 1) - 4) := by
    rw [List.drop_append_eq_append_drop,
      List.drop_eq_nil_of_le (by rw [hlen4]; omega), List.nil_append, hlen4]
  obtain ⟨x, hx⟩ := List.length_eq_one.mp
    (show (f.matched_text.drop (f.matched_text.length - 1)).length = 1 by
      rw [List.length_drop]; omega)
  have hxm : x ∈ f.matched_text :=
    List.mem_of_mem_drop (hx ▸ List.mem_singleton_self x)
  have hhead : (("***".toList).drop
      (u.length + (f.matched_text.length - 1) - 4)).head? = some x := by
    rw [← e2, e1, hx]
    rfl
  have hj : u.length + (f.matched_text.length - 1) - 4 = 0 ∨
      u.length + (f.matched_text.length - 1) - 4 = 1 ∨
      u.length + (f.matched_text.length - 1) - 4 = 2 := by omega
  have hxstar : x = '*' := by
    rcases hj with hj | hj | hj <;> rw [hj] at hhead <;>
      exact (Option.some.inj hhead).symm
  exact hstar (hxstar ▸ hxm)

theorem C6_witness :
    (⟨"r".toList, "SECRET".toList, "ABCD***".toList, 8, "[REDACTED_R]".toList⟩ :
        FormattedFinding) ∈
      formatFindings [⟨"r".toList, "SECRET".toList, "ABCDEFGH".toList, 0, 8,
        "[REDACTED_R]".toList⟩] ∧
    ∃ f ∈ [(⟨"r".toList, "SECRET".toList, "ABCDEFGH".toList, 0, 8,
        "[REDACTED_R]".toList⟩ : Finding)],
      (⟨"r".toList, "SECRET".toList, "ABCD***".toList, 8, "[REDACTED_R]".toList⟩ :
          FormattedFinding) =
        ⟨f.pattern_id, f.category, f.matched_text.take 4 ++ "***".toList,
          f.matched_text.length, f.placeholder⟩ ∧
      (4 < f.matched_text.length → '*' ∉ f.matched_text →
        ¬ f.matched_text <:+:
          (⟨"r".toList, "SECRET".toList, "ABCD***".toList, 8,
            "[REDACTED_R]".toList⟩ : FormattedFinding).originalPrefix) :=
  ⟨by decide, C6_audit_truncates_secret _ _ (by decide)⟩

/-- C7: the vm addon's `response` hook scrubs response bodies: with a
loaded rule matching `tok`, a JSON response body containing `tok` is
rewritten (placeholder substituted) rather than passed through unchanged —
contradicting the claim and the repository's own test
`test_response_body_not_scrubbed`, which asserts the hook must not exist
and the body stay byte-identical. -/
theorem C7_vm_response_hook_scrubs :
    (responseHook [tokPat] "https://api.example.com/v1".toList
        ⟨200, "key tok end".toList, "application/json".toList⟩).1.content =
      "key [REDACTED_TOK] end".toList ∧
    (responseHook [tokPat] "https://api.example.com/v1".toList
        ⟨200, "key tok end".toList, "application/json".toList⟩).1.content ≠
      "key tok end".toList :=
  ⟨by decide, by decide⟩

theorem scrubLargeAux_nil (P : List Pattern) (t : List Char)
    (hchunks : ∀ offset, offset < t.length →
      chunkCandidates P ((t.drop offset).take (CHUNK_SIZE + OVERLAP)) offset = []) :
    ∀ offset, scrubLargeAux P t offset = [] := by
  suffices h : ∀ n offset, t.length - offset ≤ n → scrubLargeAux P t offset = [] by
    intro offset
    exact h t.length offset (by omega)
  intro n
  induction n with
  | zero =>
    intro offset hn
    exact scrubLargeAux_stop _ _ _ (by omega)
  | succ n ih =>
    intro offset hn
    by_cases hlt : offset < t.length
    · rw [scrubLargeAux_step _ _ _ hlt, scrubChunk_no_matches _ _ _ (hchunks offset hlt)]
      have hC := CHUNK_SIZE_pos
      rw [ih (offset + CHUNK_SIZE) (by omega)]
      rfl
    · exact scrubLargeAux_stop _ _ _ hlt

/-- With no candidate on the whole text and none on any scanned window,
`scrub` returns the text unchanged with empty findings, on either path. -/
theorem scrub_fixed_point (P : List Pattern) (t : List Char)
    (hnone : allCandidates P t = [])
    (hchunks : ∀ offset, offset < t.length →
      chunkCandidates P ((t.drop offset).take (CHUNK_SIZE + OVERLAP)) offset = []) :
    scrub P t = ⟨t, []⟩ := by
  by_cases hsz : MAX_SCRUB_SIZE < t.length
  · rw [scrub_large_eq P t hsz]
    unfold scrubLargeText
    rw [scrubLargeAux_nil P t hchunks 0]
    rfl
  · exact scrub_no_candidates P t (by omega) hnone

/-- C9 (amended): a second scrub leaves the once-scrubbed text unchanged
provided the detectors produce no candidate match on it as a whole nor on
any window the chunked path scans of it.  The code itself guarantees
neither condition: a rule regex can re-match inside a substituted
placeholder, and on oversized output a `^`-anchored rule can match at a
window start even when it matches nowhere in the whole text. -/
theorem C9_idempotent_when_no_rematch (P : List Pattern) (s : List Char)
    (hnone : allCandidates P ((scrub P s).text) = [])
    (hchunks : ∀ offset, offset < (scrub P s).text.length →
      chunkCandidates P (((scrub P s).text.drop offset).take (CHUNK_SIZE + OVERLAP))
        offset = []) :
    (scrub P (scrub P s).text).text = (scrub P s).text := by
  rw [scrub_fixed_point P _ hnone hchunks]

theorem C9_idempotent_witness :
    allCandidates [tokPat] ((scrub [tokPat] "my tok here".toList).text) = [] ∧
    (∀ offset, offset < (scrub [tokPat] "my tok here".toList).text.length →
      chunkCandidates [tokPat]
        (((scrub [tokPat] "my tok here".toList).text.drop offset).take
          (CHUNK_SIZE + OVERLAP)) offset = []) ∧
    (scrub [tokPat] (scrub [tokPat] "my tok here".toList).text).text =
      (scrub [tokPat] "my tok here".toList).text := by
  have hchunks : ∀ offset, offset < (scrub [tokPat] "my tok here".toList).text.length →
      chunkCandidates [tokPat]
        (((scrub [tokPat] "my tok here".toList).text.drop offset).take
          (CHUNK_SIZE + OVERLAP)) offset = [] := by
    intro offset hoff
    simp only [chunkCandidates, List.flatMap_cons, List.flatMap_nil, List.append_nil]
    rw [show tokPat.matcher = findIter "tok".toList from rfl,
      findIter_no_head "tok".toList rfl _ (fun hmem =>
        absurd (List.mem_of_mem_drop (List.mem_of_mem_take hmem)) (by decide))]
    rfl
  exact ⟨rfl, hchunks,
    C9_idempotent_when_no_rematch [tokPat] "my tok here".toList rfl hchunks⟩

end Vibedom
